import Mathlib

/-!
Shallow embedding of `src/crypto/mod.rs` from hat-backup: the
authenticated-encryption framing layer (per-chunk `RefKey` scheme,
chained `FixedKey` knot-tying scheme, padding utility).

Bytes are modelled as `Nat`; owned buffers and views as lists of bytes.
Randomly generated keys and nonces are passed as explicit arguments.
Rust panics (failed `assert!`, `unwrap` on `None`, slice-index underrun)
are modelled as `none` / `Outcome.fatal`; the recoverable `Err(())` of
authenticated opening becomes `Outcome.err`.
-/

/-- xsalsa20poly1305 key size in bytes (external constant). -/
def KEYBYTES : Nat := 32

/-- xsalsa20poly1305 authentication-tag size in bytes (external constant). -/
def MACBYTES : Nat := 16

/-- xsalsa20poly1305 nonce size in bytes (external constant). -/
def NONCEBYTES : Nat := 24

/-- `desc::footer_plain_bytes`: footer holds a nonce and a little-endian u64. -/
def footer_plain_bytes : Nat := NONCEBYTES + 8

/-- `desc::footer_cipher_bytes`. -/
def footer_cipher_bytes : Nat := footer_plain_bytes + MACBYTES

/-- `desc::fixed_key_overhead`. -/
def fixed_key_overhead : Nat := MACBYTES + footer_cipher_bytes

/-- `desc::static_nonce`: the all-255 constant nonce. -/
def static_nonce : List Nat := List.replicate NONCEBYTES 255

/-- `PlainText`: an owned cleartext byte buffer. -/
structure PlainText where
  bytes : List Nat
deriving DecidableEq

/-- `CipherText`: an owned sealed byte buffer. -/
structure CipherText where
  bytes : List Nat
deriving DecidableEq

/-- `CipherTextRef`: a borrowed view, modelled by the bytes it views. -/
structure CipherTextRef where
  bytes : List Nat
deriving DecidableEq

/-- Modelled from the spec: the external secretbox primitive's
authentication tag. The primitive is specified only at its interface
(fixed-size tag over key, nonce and message); this concrete tag function
stands in for it. -/
def macTag (key nonce msg : List Nat) : List Nat :=
  let h := (key ++ nonce ++ msg).foldl (fun a b => (a * 31 + b + 1) % 2 ^ 64) 7
  (List.range MACBYTES).map (fun i => h / 2 ^ (4 * i) % 256)

/-- Modelled from the spec: external `seal(plaintext, nonce, key)`;
its output embeds a `MACBYTES`-sized tag, so its length is
`MACBYTES + |msg|`. -/
def secretbox_seal (key nonce msg : List Nat) : List Nat :=
  macTag key nonce msg ++ msg

/-- Modelled from the spec: external `open(ciphertext, nonce, key)`;
fails (authentication failure) unless the embedded tag verifies. -/
def secretbox_open (key nonce ct : List Nat) : Option (List Nat) :=
  if MACBYTES ≤ ct.length ∧ ct.take MACBYTES = macTag key nonce (ct.drop MACBYTES)
  then some (ct.drop MACBYTES)
  else none

/-- Serialization of `k` little-endian bytes of `n`
(`byteorder::WriteBytesExt::write_u64::<LittleEndian>` at `k = 8`). -/
def natToLE : Nat → Nat → List Nat
  | 0, _ => []
  | k + 1, n => n % 256 :: natToLE k (n / 256)

/-- `write_u64::<LittleEndian>`: the 8 little-endian bytes of `n`. -/
def u64ToLE (n : Nat) : List Nat := natToLE 8 n

/-- `read_u64::<LittleEndian>`: recover a number from little-endian bytes. -/
def leToNat : List Nat → Nat
  | [] => 0
  | b :: bs => b + 256 * leToNat bs

/-- Outcome of a fallible Rust operation, separating the recoverable
`Err(())` path from a panic (`assert!`/`unwrap` failure). -/
inductive Outcome (α : Type) where
  | ok : α → Outcome α
  | err : Outcome α
  | fatal : Outcome α
deriving DecidableEq

/-- `CipherTextRef::slice(from, to)`: the bytes in `[from, to)`. -/
def CipherTextRef.slice (r : CipherTextRef) (i j : Nat) : CipherTextRef :=
  ⟨(r.bytes.drop i).take (j - i)⟩

/-- `CipherTextRef::split_from_right(len)`: `(all but the last len, the
last len bytes)`; the failed `assert!(self.len() >= len)` is `none`. -/
def CipherTextRef.split_from_right (r : CipherTextRef) (len : Nat) :
    Option (CipherTextRef × CipherTextRef) :=
  if len ≤ r.bytes.length then
    some (r.slice 0 (r.bytes.length - len), r.slice (r.bytes.length - len) r.bytes.length)
  else none

/-- `CipherText::append`. -/
def CipherText.append (a b : CipherText) : CipherText := ⟨a.bytes ++ b.bytes⟩

/-- `CipherText::len`. -/
def CipherText.len (a : CipherText) : Nat := a.bytes.length

/-- `CipherText::random_pad_upto(final_size)`: extend to `final_size`
with stream-cipher output under a throwaway key/nonce; the keystream is
modelled by the explicit function `padf`. -/
def CipherText.random_pad_upto (padf : Nat → Nat) (ct : CipherText) (final_size : Nat) :
    CipherText :=
  if ct.bytes.length < final_size then
    ⟨ct.bytes ++ (List.range (final_size - ct.bytes.length)).map padf⟩
  else ct

/-- Modelled from the spec: the blob layer's `Key` (module `blob` is not
part of this crate's sources), a tagged union over encryption-algorithm
variants; one real variant today, plus a distinct case standing for any
future/unknown variant that unsealing must treat as a hard failure. -/
inductive BlobKey where
  | xsalsa20poly1305 : List Nat → BlobKey
  | unsupported : BlobKey
deriving DecidableEq

/-- Modelled from the spec: the blob layer's `ChunkRef` — a chunk's
ciphertext sub-range (offset, length) plus an optional key. -/
structure ChunkRef where
  offset : Nat
  length : Nat
  key : Option BlobKey
deriving DecidableEq

/-- Modelled from the spec: the hash-tree layer's `HashRef`, mutated
here only through its `persistent_ref` chunk metadata. -/
structure HashRef where
  persistent_ref : ChunkRef
deriving DecidableEq

/-- `RefKey::seal`: seal one chunk under a freshly generated key (passed
explicitly as `genKey`) and the constant nonce, recording the key and the
ciphertext length into the `HashRef`'s chunk metadata. -/
def RefKey.seal (genKey : List Nat) (href : HashRef) (pt : PlainText) :
    HashRef × CipherText :=
  let ct : CipherText := ⟨secretbox_seal genKey static_nonce pt.bytes⟩
  (⟨{ href.persistent_ref with
      key := some (BlobKey.xsalsa20poly1305 genKey),
      length := ct.len }⟩,
   ct)

/-- `RefKey::unseal`: slice out the chunk's sub-range and open it with
the recorded key and the constant nonce. The failed bounds `assert!` and
the `panic!` on a missing/unsupported key are `fatal`; an authentication
failure is `err`. -/
def RefKey.unseal (hash : List Nat) (cref : ChunkRef) (ct : CipherTextRef) :
    Outcome PlainText :=
  if cref.offset + cref.length ≤ ct.bytes.length then
    let ct2 := ct.slice cref.offset (cref.offset + cref.length)
    match cref.key with
    | some (BlobKey.xsalsa20poly1305 key) =>
      match secretbox_open key static_nonce ct2.bytes with
      | some pt => Outcome.ok ⟨pt⟩
      | none => Outcome.err
    | _ => Outcome.fatal
  else Outcome.fatal

/-- `FixedKey`: the long-lived shared key of the chained scheme. -/
structure FixedKey where
  key : List Nat
deriving DecidableEq

/-- `FixedKey::tie_knot`: seal `pt` under a fresh nonce (passed
explicitly), then append a footer — the nonce plus the little-endian u64
body length — sealed under a nonce taken from the last `NONCEBYTES`
bytes of the body ciphertext. The two failed assertions
(`foot_pt.len() == footer_plain_bytes`, `ct_len > NONCEBYTES`) are
`none`. -/
def FixedKey.tie_knot (fk : FixedKey) (nonce : List Nat) (pt : PlainText) :
    Option CipherText :=
  let ct := secretbox_seal fk.key nonce pt.bytes
  let ct_len := ct.length
  let foot_pt := nonce ++ u64ToLE ct_len
  if foot_pt.length = footer_plain_bytes then
    if NONCEBYTES < ct_len then
      some ⟨ct ++ secretbox_seal fk.key (ct.drop (ct_len - NONCEBYTES)) foot_pt⟩
    else none
  else none

/-- `FixedKey::untie_knot`: split off the footer ciphertext, recompute
its nonce from the last `NONCEBYTES` bytes of the remainder, open the
footer, parse (body nonce, body length), split off the body and open it.
Panics (failed splits, slice underruns) are `fatal`; failed
authenticated opens are `err`. -/
def FixedKey.untie_knot (fk : FixedKey) (ct : CipherTextRef) :
    Outcome (CipherTextRef × PlainText) :=
  match ct.split_from_right footer_cipher_bytes with
  | none => Outcome.fatal
  | some (rest, foot_ct) =>
    if NONCEBYTES ≤ rest.bytes.length then
      let nonce := rest.bytes.drop (rest.bytes.length - NONCEBYTES)
      match secretbox_open fk.key nonce foot_ct.bytes with
      | none => Outcome.err
      | some foot_pt =>
        if footer_plain_bytes ≤ foot_pt.length then
          let nonce2 := foot_pt.take NONCEBYTES
          let ct_len := leToNat ((foot_pt.drop NONCEBYTES).take 8)
          match rest.split_from_right ct_len with
          | none => Outcome.fatal
          | some (rest2, body) =>
            match secretbox_open fk.key nonce2 body.bytes with
            | none => Outcome.err
            | some pt => Outcome.ok (rest2, ⟨pt⟩)
        else Outcome.fatal
    else Outcome.fatal

/-- `FixedKey::seal`: seal with the fixed key (ties the knot). -/
def FixedKey.seal (fk : FixedKey) (nonce : List Nat) (pt : PlainText) :
    Option CipherText :=
  fk.tie_knot nonce pt

/-- `FixedKey::unseal`: unseal with the fixed key (unties the knot). -/
def FixedKey.unseal (fk : FixedKey) (ct : CipherTextRef) :
    Outcome (CipherTextRef × PlainText) :=
  fk.untie_knot ct

/-- Seal a sequence of (nonce, plaintext) segments in order, appending
the resulting ciphertexts into one buffer (the caller-side loop the spec
describes for the chained scheme). -/
def tie_all (fk : FixedKey) : List (List Nat × PlainText) → Option (List Nat)
  | [] => some []
  | x :: xs =>
    match fk.seal x.1 x.2 with
    | some seg =>
      match tie_all fk xs with
      | some buf => some (seg.bytes ++ buf)
      | none => none
    | none => none

/-- Untie `n` segments from the tail, feeding the returned remainder
back each time; collects the recovered plaintexts in untie order.
`none` when any untie fails to return `Ok`. -/
def untie_chain (fk : FixedKey) : Nat → CipherTextRef → Option (CipherTextRef × List PlainText)
  | 0, r => some (r, [])
  | n + 1, r =>
    match fk.unseal r with
    | Outcome.ok (r2, pt) =>
      match untie_chain fk n r2 with
      | some (r3, pts) => some (r3, pt :: pts)
      | none => none
    | _ => none

/-! ### Basic lemmas about the modelled primitive and serialization -/

theorem macTag_length (key nonce msg : List Nat) :
    (macTag key nonce msg).length = MACBYTES := by
  simp [macTag]

theorem secretbox_seal_length (key nonce msg : List Nat) :
    (secretbox_seal key nonce msg).length = MACBYTES + msg.length := by
  simp [secretbox_seal, macTag_length]

theorem secretbox_open_seal (key nonce msg : List Nat) :
    secretbox_open key nonce (secretbox_seal key nonce msg) = some msg := by
  have htag := macTag_length key nonce msg
  have htake : (secretbox_seal key nonce msg).take MACBYTES = macTag key nonce msg :=
    List.take_left' htag
  have hdrop : (secretbox_seal key nonce msg).drop MACBYTES = msg :=
    List.drop_left' htag
  rw [secretbox_open, if_pos]
  · rw [hdrop]
  · refine ⟨?_, by rw [htake, hdrop]⟩
    rw [secretbox_seal_length]
    exact Nat.le_add_right _ _

theorem natToLE_length (k n : Nat) : (natToLE k n).length = k := by
  induction k generalizing n with
  | zero => rfl
  | succ k ih => simp [natToLE, ih]

theorem u64ToLE_length (n : Nat) : (u64ToLE n).length = 8 :=
  natToLE_length 8 n

theorem leToNat_natToLE (k n : Nat) : leToNat (natToLE k n) = n % 256 ^ k := by
  induction k generalizing n with
  | zero => simp [natToLE, leToNat, Nat.mod_one]
  | succ k ih =>
    have h1 : n % (256 * 256 ^ k) % 256 = n % 256 :=
      Nat.mod_mod_of_dvd n ⟨256 ^ k, rfl⟩
    have h2 : n % (256 * 256 ^ k) / 256 = n / 256 % 256 ^ k :=
      Nat.mod_mul_right_div_self n 256 (256 ^ k)
    have h3 := Nat.div_add_mod (n % (256 * 256 ^ k)) 256
    have hpow : (256 : Nat) ^ (k + 1) = 256 * 256 ^ k := by
      rw [Nat.pow_succ, Nat.mul_comm]
    simp only [natToLE, leToNat, ih, hpow]
    omega

theorem leToNat_u64ToLE (n : Nat) (h : n < 2 ^ 64) : leToNat (u64ToLE n) = n := by
  have : (256 : Nat) ^ 8 = 2 ^ 64 := by norm_num
  rw [u64ToLE, leToNat_natToLE, this, Nat.mod_eq_of_lt h]

theorem split_from_right_of_le (r : CipherTextRef) (len : Nat)
    (h : len ≤ r.bytes.length) :
    r.split_from_right len =
      some (⟨r.bytes.take (r.bytes.length - len)⟩, ⟨r.bytes.drop (r.bytes.length - len)⟩) := by
  rw [CipherTextRef.split_from_right, if_pos h]
  refine congrArg some (Prod.ext ?_ ?_)
  · show CipherTextRef.mk ((r.bytes.drop 0).take (r.bytes.length - len - 0)) = _
    simp
  · show CipherTextRef.mk
        ((r.bytes.drop (r.bytes.length - len)).take
          (r.bytes.length - (r.bytes.length - len))) = _
    have hlen : (r.bytes.drop (r.bytes.length - len)).length =
        r.bytes.length - (r.bytes.length - len) := by
      simp
    rw [← hlen, List.take_length]

/-! ### The knot round-trip -/

theorem untie_knot_append (fk : FixedKey) (pre msg nonce : List Nat)
    (hnonce : nonce.length = NONCEBYTES)
    (hlen : NONCEBYTES < MACBYTES + msg.length)
    (hsize : MACBYTES + msg.length < 2 ^ 64) :
    fk.untie_knot
      ⟨pre ++ (secretbox_seal fk.key nonce msg ++
        secretbox_seal fk.key
          ((secretbox_seal fk.key nonce msg).drop
            ((secretbox_seal fk.key nonce msg).length - NONCEBYTES))
          (nonce ++ u64ToLE (secretbox_seal fk.key nonce msg).length))⟩
      = Outcome.ok (⟨pre⟩, ⟨msg⟩) := by
  have hBlen : (secretbox_seal fk.key nonce msg).length = MACBYTES + msg.length :=
    secretbox_seal_length fk.key nonce msg
  set B := secretbox_seal fk.key nonce msg with hB
  set F := secretbox_seal fk.key (B.drop (B.length - NONCEBYTES)) (nonce ++ u64ToLE B.length)
    with hF
  have hFlen : F.length = footer_cipher_bytes := by
    rw [hF, secretbox_seal_length, List.length_append, hnonce, u64ToLE_length]
    rfl
  have hle1 : footer_cipher_bytes ≤ (pre ++ (B ++ F)).length := by
    simp only [List.length_append, hFlen]
    omega
  have hsplit1 : CipherTextRef.split_from_right ⟨pre ++ (B ++ F)⟩ footer_cipher_bytes
      = some (⟨pre ++ B⟩, ⟨F⟩) := by
    rw [split_from_right_of_le _ _ hle1]
    have hlen1 : (pre ++ (B ++ F)).length - footer_cipher_bytes = (pre ++ B).length := by
      simp only [List.length_append, hFlen]
      omega
    rw [hlen1, ← List.append_assoc, List.take_left, List.drop_left]
  have h24 : NONCEBYTES ≤ (pre ++ B).length := by
    simp only [List.length_append, hBlen]
    omega
  have hdropPre : (pre ++ B).drop ((pre ++ B).length - NONCEBYTES)
      = B.drop (B.length - NONCEBYTES) := by
    have h : (pre ++ B).length - NONCEBYTES = pre.length + (B.length - NONCEBYTES) := by
      simp only [List.length_append]
      omega
    rw [h, List.drop_append]
  have hopenF : secretbox_open fk.key (B.drop (B.length - NONCEBYTES)) F
      = some (nonce ++ u64ToLE B.length) := by
    rw [hF]
    exact secretbox_open_seal _ _ _
  have hfp : footer_plain_bytes ≤ (nonce ++ u64ToLE B.length).length := by
    simp only [List.length_append, hnonce, u64ToLE_length]
    exact Nat.le_refl _
  have htake24 : (nonce ++ u64ToLE B.length).take NONCEBYTES = nonce := List.take_left' hnonce
  have hdrop24 : (nonce ++ u64ToLE B.length).drop NONCEBYTES = u64ToLE B.length :=
    List.drop_left' hnonce
  have htake8 : (u64ToLE B.length).take 8 = u64ToLE B.length := by
    rw [← u64ToLE_length B.length, List.take_length]
  have hreadLen : leToNat (((nonce ++ u64ToLE B.length).drop NONCEBYTES).take 8) = B.length := by
    rw [hdrop24, htake8]
    exact leToNat_u64ToLE _ (by rw [hBlen]; exact hsize)
  have hle2 : B.length ≤ (pre ++ B).length := by
    simp [List.length_append]
  have hsplit2 : CipherTextRef.split_from_right ⟨pre ++ B⟩ B.length = some (⟨pre⟩, ⟨B⟩) := by
    rw [split_from_right_of_le _ _ hle2]
    have h : (pre ++ B).length - B.length = pre.length := by
      simp [List.length_append]
    rw [h, List.take_left, List.drop_left]
  have hopenB : secretbox_open fk.key nonce B = some msg := by
    rw [hB]
    exact secretbox_open_seal _ _ _
  simp only [FixedKey.untie_knot, hsplit1, h24, if_pos, hdropPre, hopenF, hfp, htake24,
    hreadLen, hsplit2, hopenB, if_true]

theorem tie_knot_eq_some (fk : FixedKey) (nonce : List Nat) (pt : PlainText) (seg : CipherText)
    (hseal : fk.tie_knot nonce pt = some seg) :
    nonce.length = NONCEBYTES ∧ NONCEBYTES < MACBYTES + pt.bytes.length ∧
      seg.bytes = secretbox_seal fk.key nonce pt.bytes ++
        secretbox_seal fk.key
          ((secretbox_seal fk.key nonce pt.bytes).drop
            ((secretbox_seal fk.key nonce pt.bytes).length - NONCEBYTES))
          (nonce ++ u64ToLE (secretbox_seal fk.key nonce pt.bytes).length) := by
  simp only [FixedKey.tie_knot] at hseal
  by_cases h1 : (nonce ++ u64ToLE (secretbox_seal fk.key nonce pt.bytes).length).length
      = footer_plain_bytes
  · rw [if_pos h1] at hseal
    by_cases h2 : NONCEBYTES < (secretbox_seal fk.key nonce pt.bytes).length
    · rw [if_pos h2] at hseal
      obtain rfl := (Option.some.inj hseal).symm
      refine ⟨?_, ?_, rfl⟩
      · rw [List.length_append, u64ToLE_length] at h1
        simp only [footer_plain_bytes] at h1
        omega
      · rw [secretbox_seal_length] at h2
        exact h2
    · rw [if_neg h2] at hseal
      cases hseal
  · rw [if_neg h1] at hseal
    cases hseal

theorem untie_tie (fk : FixedKey) (nonce : List Nat) (pt : PlainText) (seg : CipherText)
    (pre : List Nat)
    (hseal : fk.tie_knot nonce pt = some seg)
    (hsize : MACBYTES + pt.bytes.length < 2 ^ 64) :
    fk.untie_knot ⟨pre ++ seg.bytes⟩ = Outcome.ok (⟨pre⟩, pt) := by
  obtain ⟨hnonce, hlen, hseg⟩ := tie_knot_eq_some fk nonce pt seg hseal
  rw [hseg]
  exact untie_knot_append fk pre pt.bytes nonce hnonce hlen hsize

/-! ### Chained sealing and tail-first untying -/

theorem tie_all_append (fk : FixedKey) (xs ys : List (List Nat × PlainText)) (buf : List Nat)
    (h : tie_all fk (xs ++ ys) = some buf) :
    ∃ b1 b2, tie_all fk xs = some b1 ∧ tie_all fk ys = some b2 ∧ buf = b1 ++ b2 := by
  induction xs generalizing buf with
  | nil =>
    exact ⟨[], buf, rfl, h, rfl⟩
  | cons x xs ih =>
    rw [List.cons_append, tie_all] at h
    cases hseg : fk.seal x.1 x.2 with
    | none => rw [hseg] at h; cases h
    | some seg =>
      rw [hseg] at h
      cases hrest : tie_all fk (xs ++ ys) with
      | none => rw [hrest] at h; cases h
      | some buf2 =>
        rw [hrest] at h
        obtain rfl := (Option.some.inj h).symm
        obtain ⟨b1, b2, hb1, hb2, rfl⟩ := ih buf2 hrest
        refine ⟨seg.bytes ++ b1, b2, ?_, hb2, by rw [List.append_assoc]⟩
        rw [tie_all, hseg, hb1]

theorem untie_chain_spec (fk : FixedKey) (ps : List (List Nat × PlainText))
    (pre buf : List Nat)
    (hsize : ∀ x ∈ ps, MACBYTES + x.2.bytes.length < 2 ^ 64)
    (h : tie_all fk ps = some buf) :
    untie_chain fk ps.length ⟨pre ++ buf⟩ = some (⟨pre⟩, (ps.map Prod.snd).reverse) := by
  induction ps using List.reverseRecOn generalizing buf with
  | nil =>
    obtain rfl := (Option.some.inj h).symm
    simp [untie_chain]
  | append_singleton l x ih =>
    obtain ⟨b1, b2, hb1, hb2, rfl⟩ := tie_all_append fk l [x] buf h
    rw [tie_all] at hb2
    cases hseg : fk.seal x.1 x.2 with
    | none => rw [hseg] at hb2; cases hb2
    | some seg =>
      rw [hseg, tie_all] at hb2
      obtain rfl := (Option.some.inj hb2).symm
      have hx : MACBYTES + x.2.bytes.length < 2 ^ 64 :=
        hsize x (List.mem_append.mpr (Or.inr (List.mem_singleton.mpr rfl)))
      have huntie : fk.unseal ⟨(pre ++ b1) ++ seg.bytes⟩ = Outcome.ok (⟨pre ++ b1⟩, x.2) :=
        untie_tie fk x.1 x.2 seg (pre ++ b1) hseg hx
      have hlen : (l ++ [x]).length = l.length + 1 := by
        simp
      rw [hlen]
      have hview : pre ++ (b1 ++ (seg.bytes ++ [])) = (pre ++ b1) ++ seg.bytes := by
        simp [List.append_assoc]
      rw [untie_chain, hview, huntie]
      have hih := ih b1 (fun y hy => hsize y (List.mem_append.mpr (Or.inl hy))) hb1
      simp only [hih]
      simp

/-! ### Concrete example material -/

/-- A concrete shared fixed key for examples. -/
def exFK : FixedKey := ⟨List.range 32⟩

/-- A concrete nonce. -/
def nA : List Nat := List.range 24

/-- A second concrete nonce. -/
def nB : List Nat := (List.range 24).map (fun i => i + 50)

/-- A third concrete nonce. -/
def nC : List Nat := (List.range 24).map (fun i => i + 100)

/-- A 9-byte plaintext (the letter a repeated). -/
def pA : PlainText := ⟨List.replicate 9 97⟩

/-- A 10-byte plaintext (the letter b repeated). -/
def pB : PlainText := ⟨List.replicate 10 98⟩

/-- An 11-byte plaintext (the letter c repeated). -/
def pC : PlainText := ⟨List.replicate 11 99⟩

/-- The three concrete segments of the three-segment scenario. -/
def c4Ps : List (List Nat × PlainText) := [(nA, pA), (nB, pB), (nC, pC)]

/-- The buffer produced by tying the three concrete segments. -/
def c4Buf : List Nat := (tie_all exFK c4Ps).getD []

/-- A two-segment buffer for the chained round-trip witness. -/
def w1Buf : List Nat := (tie_all exFK [(nA, pA), (nB, pB)]).getD []

/-- A concrete throwaway padding stream. -/
def exPad : Nat → Nat := fun i => (i * 37 + 11) % 256

/-- A one-segment buffer. -/
def oneBuf : List Nat := (tie_all exFK [(nA, pA)]).getD []

/-- One concrete tied segment. -/
def c6Seg : CipherText := (exFK.tie_knot nA pA).getD ⟨[]⟩

/-! ### Claim theorems -/

/-- C1: for every sequence of plaintexts sealed in order with
`FixedKey::seal` under one shared key and appended into one buffer,
untying the buffer from the tail once per segment returns `Ok` every
time and yields the plaintexts in exact reverse order, byte-identical
to the originals. (Lengths are below the u64 range, as `usize` lengths
are in the source.) -/
theorem fixedkey_chained_roundtrip (fk : FixedKey) (ps : List (List Nat × PlainText))
    (buf : List Nat)
    (hsize : ∀ x ∈ ps, MACBYTES + x.2.bytes.length < 2 ^ 64)
    (h : tie_all fk ps = some buf) :
    untie_chain fk ps.length ⟨buf⟩ = some (⟨[]⟩, (ps.map Prod.snd).reverse) := by
  have h0 := untie_chain_spec fk ps [] buf hsize h
  simpa using h0

/-- Witness for C1: the two-segment concrete buffer unties to the two
plaintexts in reverse order. -/
theorem fixedkey_chained_roundtrip_witness :
    untie_chain exFK 2 ⟨w1Buf⟩ = some (⟨[]⟩, [pB, pA]) :=
  fixedkey_chained_roundtrip exFK [(nA, pA), (nB, pB)] w1Buf (by decide) (by rfl)

/-- C2: `RefKey::seal` records the generated key and the ciphertext
length `|P| + MACBYTES` into the chunk metadata, and `RefKey::unseal`
with a `ChunkRef` carrying that key, offset 0 and that length returns
`Ok` with exactly the original bytes. -/
theorem refkey_roundtrip (genKey : List Nat) (href : HashRef) (pt : PlainText)
    (hash : List Nat) :
    (RefKey.seal genKey href pt).1.persistent_ref.key
        = some (BlobKey.xsalsa20poly1305 genKey) ∧
    (RefKey.seal genKey href pt).1.persistent_ref.length = pt.bytes.length + MACBYTES ∧
    RefKey.unseal hash
      ⟨0, pt.bytes.length + MACBYTES, some (BlobKey.xsalsa20poly1305 genKey)⟩
      ⟨(RefKey.seal genKey href pt).2.bytes⟩ = Outcome.ok pt := by
  have hctlen : (secretbox_seal genKey static_nonce pt.bytes).length
      = MACBYTES + pt.bytes.length := secretbox_seal_length _ _ _
  refine ⟨rfl, ?_, ?_⟩
  · show (secretbox_seal genKey static_nonce pt.bytes).length = pt.bytes.length + MACBYTES
    rw [hctlen, Nat.add_comm]
  · show RefKey.unseal hash
        ⟨0, pt.bytes.length + MACBYTES, some (BlobKey.xsalsa20poly1305 genKey)⟩
        ⟨secretbox_seal genKey static_nonce pt.bytes⟩ = Outcome.ok pt
    have hcond : 0 + (pt.bytes.length + MACBYTES)
        ≤ (secretbox_seal genKey static_nonce pt.bytes).length := by
      omega
    have hslice : (CipherTextRef.slice ⟨secretbox_seal genKey static_nonce pt.bytes⟩ 0
        (0 + (pt.bytes.length + MACBYTES))).bytes
        = secretbox_seal genKey static_nonce pt.bytes := by
      simp only [CipherTextRef.slice, List.drop_zero, Nat.sub_zero]
      exact List.take_of_length_le (by omega)
    simp only [RefKey.unseal, if_pos hcond, hslice, secretbox_open_seal]

/-- C3 counterexample: at a concrete key and nonce, `FixedKey::seal` of
the empty plaintext trips the fatal assertion `ct_len > NONCEBYTES`
instead of completing with a well-formed segment. -/
theorem tie_knot_empty_counterexample :
    FixedKey.tie_knot exFK nA ⟨[]⟩ = none := by decide

/-- C3 amended: a body of length 0 does not produce a segment — for
every key and nonce, `FixedKey::tie_knot` on the empty plaintext fails
its fatal assertion `ct_len > NONCEBYTES` (the 16-byte ciphertext of an
empty body is shorter than a nonce) and aborts. -/
theorem tie_knot_empty_fatal (fk : FixedKey) (nonce : List Nat) :
    fk.tie_knot nonce (⟨[]⟩ : PlainText) = none := by
  simp only [FixedKey.tie_knot]
  have h16 : (secretbox_seal fk.key nonce (PlainText.mk []).bytes).length = 16 := by
    rw [secretbox_seal_length]
    rfl
  rw [h16]
  have hno : ¬ (NONCEBYTES < 16) := by decide
  rw [if_neg hno]
  split <;> rfl

/-- C10: `RefKey::unseal`'s result does not depend on its `hash`
argument: any two hash byte strings give identical results. -/
theorem refkey_unseal_hash_independent (h1 h2 : List Nat) (cref : ChunkRef)
    (ct : CipherTextRef) :
    RefKey.unseal h1 cref ct = RefKey.unseal h2 cref ct := rfl

/-- C4 counterexample: tying the claimed segments "a", "bb", "ccc"
already fails at the first segment — its 17-byte ciphertext trips the
fatal assertion `ct_len > NONCEBYTES` — so the scenario cannot even be
tied as stated. -/
theorem three_short_segments_counterexample :
    tie_all exFK [(nA, ⟨[97]⟩), (nB, ⟨[98, 98]⟩), (nC, ⟨[99, 99, 99]⟩)] = none := by
  decide

set_option maxRecDepth 8000 in
/-- C4 amended: with the three segments lengthened past the
`ct_len > NONCEBYTES` assertion (9, 10 and 11 bytes of a, b, c), tying
them in order under one shared key succeeds; untying three times from
the tail yields them in reverse order with an empty remainder; and a
fourth untie attempt on the empty remainder fails fatally because the
buffer is shorter than a footer. -/
theorem fixedkey_three_segments :
    tie_all exFK c4Ps = some c4Buf ∧
    untie_chain exFK 3 ⟨c4Buf⟩ = some (⟨[]⟩, [pC, pB, pA]) ∧
    CipherTextRef.split_from_right ⟨[]⟩ footer_cipher_bytes = none ∧
    FixedKey.untie_knot exFK ⟨[]⟩ = Outcome.fatal := by
  refine ⟨by rfl, by decide, by decide, by decide⟩

set_option maxRecDepth 8000 in
/-- C5 counterexample: padding a one-segment buffer to 150 bytes makes
the first untie from the tail of the padded buffer read padding bytes as
a footer and fail authentication, so untying the padded buffer does not
recover the original plaintext. -/
theorem padded_untie_counterexample :
    FixedKey.untie_knot exFK ⟨(CipherText.random_pad_upto exPad ⟨oneBuf⟩ 150).bytes⟩
      = Outcome.err := by
  decide

/-- C5 amended: `random_pad_upto` only appends filler — the original
sealed bytes survive unchanged as a prefix of the padded buffer — so
untying all real segments from a view of just the original bytes (the
padding split off) still succeeds and recovers the original plaintexts;
the padding bytes never enter any segment. -/
theorem padding_outside_segments (fk : FixedKey) (padf : Nat → Nat)
    (ps : List (List Nat × PlainText)) (buf : List Nat) (final : Nat)
    (hsize : ∀ x ∈ ps, MACBYTES + x.2.bytes.length < 2 ^ 64)
    (h : tie_all fk ps = some buf) :
    (CipherText.random_pad_upto padf ⟨buf⟩ final).bytes.take buf.length = buf ∧
    untie_chain fk ps.length
        ⟨(CipherText.random_pad_upto padf ⟨buf⟩ final).bytes.take buf.length⟩
      = some (⟨[]⟩, (ps.map Prod.snd).reverse) := by
  have hpre : (CipherText.random_pad_upto padf ⟨buf⟩ final).bytes.take buf.length = buf := by
    simp only [CipherText.random_pad_upto]
    split
    · exact List.take_left buf _
    · exact List.take_length buf
  have h0 := untie_chain_spec fk ps [] buf hsize h
  rw [List.nil_append] at h0
  exact ⟨hpre, by rw [hpre]; exact h0⟩

/-- Witness for C5 (amended): the concrete one-segment buffer, padded to
150 bytes, keeps its original bytes as a prefix, and untying that prefix
recovers the plaintext. -/
theorem padding_outside_segments_witness :
    (CipherText.random_pad_upto exPad ⟨oneBuf⟩ 150).bytes.take oneBuf.length = oneBuf ∧
    untie_chain exFK 1
        ⟨(CipherText.random_pad_upto exPad ⟨oneBuf⟩ 150).bytes.take oneBuf.length⟩
      = some (⟨[]⟩, [pA]) :=
  padding_outside_segments exFK exPad [(nA, pA)] oneBuf 150 (by decide) (by rfl)

/-- C6: for every segment produced by `tie_knot` placed after any
prefix, the nonce `untie_knot` recomputes (the last NONCEBYTES bytes of
the remainder left after splitting off the footer ciphertext) equals the
nonce `tie_knot` used to seal the footer (the last NONCEBYTES bytes of
the body ciphertext). -/
theorem knot_nonce_agreement (fk : FixedKey) (nonce : List Nat) (pt : PlainText)
    (seg : CipherText) (pre : List Nat)
    (hseal : fk.tie_knot nonce pt = some seg) :
    ((pre ++ seg.bytes).take ((pre ++ seg.bytes).length - footer_cipher_bytes)).drop
        (((pre ++ seg.bytes).take ((pre ++ seg.bytes).length - footer_cipher_bytes)).length
          - NONCEBYTES)
      = (secretbox_seal fk.key nonce pt.bytes).drop
          ((secretbox_seal fk.key nonce pt.bytes).length - NONCEBYTES) := by
  obtain ⟨hnonce, hlen, hseg⟩ := tie_knot_eq_some fk nonce pt seg hseal
  rw [hseg]
  set B := secretbox_seal fk.key nonce pt.bytes with hB
  set F := secretbox_seal fk.key (B.drop (B.length - NONCEBYTES)) (nonce ++ u64ToLE B.length)
    with hF
  have hBlen : B.length = MACBYTES + pt.bytes.length := by
    rw [hB]
    exact secretbox_seal_length _ _ _
  have hFlen : F.length = footer_cipher_bytes := by
    rw [hF, secretbox_seal_length, List.length_append, hnonce, u64ToLE_length]
    rfl
  have h1 : (pre ++ (B ++ F)).length - footer_cipher_bytes = (pre ++ B).length := by
    simp only [List.length_append, hFlen]
    omega
  rw [h1, ← List.append_assoc, List.take_left]
  have h2 : (pre ++ B).length - NONCEBYTES = pre.length + (B.length - NONCEBYTES) := by
    simp only [List.length_append]
    omega
  rw [h2, List.drop_append]

/-- Witness for C6 at a concrete key, nonce, plaintext and prefix. -/
theorem knot_nonce_agreement_witness :
    (([5, 6, 7] ++ c6Seg.bytes).take
        (([5, 6, 7] ++ c6Seg.bytes).length - footer_cipher_bytes)).drop
        ((([5, 6, 7] ++ c6Seg.bytes).take
          (([5, 6, 7] ++ c6Seg.bytes).length - footer_cipher_bytes)).length - NONCEBYTES)
      = (secretbox_seal exFK.key nA pA.bytes).drop
          ((secretbox_seal exFK.key nA pA.bytes).length - NONCEBYTES) :=
  knot_nonce_agreement exFK nA pA c6Seg [5, 6, 7] (by rfl)

/-- C7: `footer_plain_bytes` is the constant NONCEBYTES + 8 and
`footer_cipher_bytes` the constant NONCEBYTES + 8 + MACBYTES, both
independent of the plaintext; and the footer of any tied segment opens
(under the tie-time footer nonce) to exactly the body nonce followed by
the body-ciphertext length as an 8-byte little-endian integer. -/
theorem footer_layout :
    footer_plain_bytes = NONCEBYTES + 8 ∧
    footer_cipher_bytes = NONCEBYTES + 8 + MACBYTES ∧
    ∀ (fk : FixedKey) (nonce : List Nat) (pt : PlainText) (seg : CipherText),
      fk.tie_knot nonce pt = some seg →
      secretbox_open fk.key
          ((secretbox_seal fk.key nonce pt.bytes).drop
            ((secretbox_seal fk.key nonce pt.bytes).length - NONCEBYTES))
          (seg.bytes.drop (seg.bytes.length - footer_cipher_bytes))
        = some (nonce ++ u64ToLE (MACBYTES + pt.bytes.length)) := by
  refine ⟨rfl, rfl, ?_⟩
  intro fk nonce pt seg hseal
  obtain ⟨hnonce, hlen, hseg⟩ := tie_knot_eq_some fk nonce pt seg hseal
  rw [hseg]
  set B := secretbox_seal fk.key nonce pt.bytes with hB
  set F := secretbox_seal fk.key (B.drop (B.length - NONCEBYTES)) (nonce ++ u64ToLE B.length)
    with hF
  have hBlen : B.length = MACBYTES + pt.bytes.length := by
    rw [hB]
    exact secretbox_seal_length _ _ _
  have hFlen : F.length = footer_cipher_bytes := by
    rw [hF, secretbox_seal_length, List.length_append, hnonce, u64ToLE_length]
    rfl
  have h1 : (B ++ F).length - footer_cipher_bytes = B.length := by
    simp only [List.length_append, hFlen]
    omega
  rw [h1, List.drop_left, hF, ← hBlen]
  exact secretbox_open_seal _ _ _

/-- Witness for C7 at a concrete key, nonce and plaintext. -/
theorem footer_layout_witness :
    secretbox_open exFK.key
        ((secretbox_seal exFK.key nA pA.bytes).drop
          ((secretbox_seal exFK.key nA pA.bytes).length - NONCEBYTES))
        (c6Seg.bytes.drop (c6Seg.bytes.length - footer_cipher_bytes))
      = some (nA ++ u64ToLE (MACBYTES + pA.bytes.length)) :=
  footer_layout.2.2 exFK nA pA c6Seg (by rfl)

/-- C8: with the metadata bounds satisfied, `RefKey::unseal` returns the
recoverable error exactly when authenticated opening of the chunk's
sub-range fails tag verification, and it terminates fatally — never via
the error path — when the `ChunkRef`'s key is absent or an unsupported
variant. -/
theorem refkey_unseal_error_taxonomy (hash : List Nat) (cref : ChunkRef)
    (ct : CipherTextRef) (h : cref.offset + cref.length ≤ ct.bytes.length) :
    (∀ k, cref.key = some (BlobKey.xsalsa20poly1305 k) →
      (RefKey.unseal hash cref ct = Outcome.err ↔
        secretbox_open k static_nonce
          ((ct.bytes.drop cref.offset).take cref.length) = none)) ∧
    ((cref.key = none ∨ cref.key = some BlobKey.unsupported) →
      RefKey.unseal hash cref ct = Outcome.fatal) := by
  have hslice : (ct.slice cref.offset (cref.offset + cref.length)).bytes
      = (ct.bytes.drop cref.offset).take cref.length := by
    simp only [CipherTextRef.slice, Nat.add_sub_cancel_left]
  constructor
  · intro k hk
    simp only [RefKey.unseal, if_pos h, hk, hslice]
    cases secretbox_open k static_nonce ((ct.bytes.drop cref.offset).take cref.length) with
    | some pt => simp
    | none => simp
  · intro hk
    rcases hk with hk | hk <;> simp [RefKey.unseal, if_pos h, hk]

/-- Witness for C8: a missing key is fatal, and with a present key the
error result tracks the failed open, at concrete inputs. -/
theorem refkey_unseal_error_taxonomy_witness :
    (RefKey.unseal [] ⟨0, 0, none⟩ ⟨[]⟩ = Outcome.fatal) ∧
    (RefKey.unseal [] ⟨0, 3, some (BlobKey.xsalsa20poly1305 [1])⟩ ⟨[9, 9, 9]⟩ = Outcome.err ↔
      secretbox_open [1] static_nonce (([9, 9, 9].drop 0).take 3) = none) :=
  ⟨(refkey_unseal_error_taxonomy [] ⟨0, 0, none⟩ ⟨[]⟩ (by decide)).2 (Or.inl rfl),
   (refkey_unseal_error_taxonomy [] ⟨0, 3, some (BlobKey.xsalsa20poly1305 [1])⟩ ⟨[9, 9, 9]⟩
      (by decide)).1 [1] rfl⟩

/-- C9: `split_from_right(len)` requires the view to hold at least `len`
bytes — below that bound it returns, as views into the same bytes, the
pair (all bytes but the last `len`, the last `len` bytes), and above it
the fatal assertion fires — and `RefKey::unseal` fatally asserts that
the view holds at least `offset + length` bytes before slicing. -/
theorem split_from_right_contract (r : CipherTextRef) (len : Nat) :
    (len ≤ r.bytes.length →
      r.split_from_right len =
        some (⟨r.bytes.take (r.bytes.length - len)⟩, ⟨r.bytes.drop (r.bytes.length - len)⟩)) ∧
    (r.bytes.length < len → r.split_from_right len = none) ∧
    (∀ (hash : List Nat) (cref : ChunkRef) (ct : CipherTextRef),
      ct.bytes.length < cref.offset + cref.length →
      RefKey.unseal hash cref ct = Outcome.fatal) := by
  refine ⟨fun h => split_from_right_of_le r len h, fun h => ?_, fun hash cref ct h => ?_⟩
  · rw [CipherTextRef.split_from_right, if_neg (by omega)]
  · simp only [RefKey.unseal]
    rw [if_neg (by omega)]

/-- Witness for C9: both split outcomes and the unseal bounds assertion
at concrete inputs. -/
theorem split_from_right_contract_witness :
    (CipherTextRef.split_from_right ⟨[0, 1, 2]⟩ 2 = some (⟨[0]⟩, ⟨[1, 2]⟩)) ∧
    (CipherTextRef.split_from_right ⟨[0]⟩ 2 = none) ∧
    (RefKey.unseal [] ⟨1, 1, none⟩ ⟨[]⟩ = Outcome.fatal) :=
  ⟨(split_from_right_contract ⟨[0, 1, 2]⟩ 2).1 (by decide),
   (split_from_right_contract ⟨[0]⟩ 2).2.1 (by decide),
   (split_from_right_contract ⟨[0]⟩ 2).2.2 [] ⟨1, 1, none⟩ ⟨[]⟩ (by decide)⟩
